import Mathlib

/-!
Verification of the chunking + sequential refine-accumulation pipeline of
ResumeCompass (src/application.py).

Text is modelled as List Char.  The segmenter (RecursiveCharacterTextSplitter,
configured at src/application.py:113-118) and the refine summarize chain
(load_summarize_chain, src/application.py:1083-1095) live in the langchain
library, outside this repository; they are modelled from the spec (sections
4.2 and 4.3).  The pdf/docx extraction control flow (process_pdf,
process_docx) is in the source and embedded directly, with the external
loaders as parameters.
-/

namespace ResumeCompass

/-! ## Prompt templates and the refine accumulator (spec section 4.3) -/

/-- Modelled from the spec: the prompt-template language (langchain
PromptTemplate, not in this repository) — a template is a sequence of
parts: literal text, the text placeholder, or the existing-answer
placeholder (spec section 6: named placeholders, text for initial,
existing_answer and text for refine). -/
inductive TmplPart
  | lit (s : List Char)
  | phText
  | phExisting
  deriving DecidableEq, Repr

/-- Substitute one template part. -/
def renderPart (cur text : List Char) : TmplPart → List Char
  | TmplPart.lit s => s
  | TmplPart.phText => text
  | TmplPart.phExisting => cur

/-- Render a template against the current answer and the segment text. -/
def render (t : List TmplPart) (cur text : List Char) : List Char :=
  (t.map (renderPart cur text)).flatten

/-- Modelled from the spec: the GenerationError of section 7 (the error
type is not in this repository) — the generation capability failed on a
segment: carries the index of the failing segment, the partial steps
accumulated so far, and the cause. -/
structure GenerationError where
  idx : Nat
  steps : List (List Char)
  cause : List Char
  deriving DecidableEq, Repr

deriving instance DecidableEq for Except

/-- Modelled from the spec: the refine summarize chain (langchain
load_summarize_chain with chain_type refine, only invoked at
src/application.py:1083-1095) — one pass over the remaining segments per
the section 4.3 state machine: segment 0 renders the initial template,
later segments render the refine template with the current answer; each
result is appended to the steps log; a generation failure aborts with the
failing index and the partial steps.  The second component of the result
is the ordered log of prompts issued (one per generate call); gen takes
the segment index so that stubs that fail at a given position can be
expressed. -/
def refineAux (it rt : List TmplPart)
    (gen : Nat → List Char → Except (List Char) (List Char))
    (cur : List Char) (steps : List (List Char)) (idx : Nat) :
    List (List Char) →
      Except GenerationError (List Char × List (List Char)) × List (List Char)
  | [] => (Except.ok (cur, steps), [])
  | s :: rest =>
    let p := if idx = 0 then render it [] s else render rt cur s
    match gen idx p with
    | Except.error c => (Except.error ⟨idx, steps, c⟩, [p])
    | Except.ok ans =>
      let r := refineAux it rt gen ans (steps ++ [ans]) (idx + 1) rest
      (r.1, p :: r.2)

/-- The refine accumulator: fold the generation call over the segments in
order, starting from an empty answer and an empty log. -/
def refine (it rt : List TmplPart)
    (gen : Nat → List Char → Except (List Char) (List Char))
    (segs : List (List Char)) :
    Except GenerationError (List Char × List (List Char)) × List (List Char) :=
  refineAux it rt gen [] [] 0 segs

/-- The sequence of prompts issued by a run with a total (never failing)
deterministic generate function g. -/
def refineLog (it rt : List TmplPart) (g : List Char → List Char)
    (cur : List Char) (idx : Nat) : List (List Char) → List (List Char)
  | [] => []
  | s :: rest =>
    let p := if idx = 0 then render it [] s else render rt cur s
    p :: refineLog it rt g (g p) (idx + 1) rest

/-- s occurs inside t as a contiguous substring. -/
def infixOf (s t : List Char) : Prop :=
  ∃ a b, t = a ++ s ++ b

/-! ## The segmenter (spec section 4.2)

Modelled from the spec: the recursive/greedy separator-splitting segmenter
behind the advanced_text_splitter configured at src/application.py:113-118
(chunk_size 1500, chunk_overlap 200, prioritized separators, keep-separator
semantics) lives in the langchain library, outside this repository. -/

/-- The last n characters of l. -/
def takeRight (n : Nat) (l : List Char) : List Char :=
  l.drop (l.length - n)

/-- Find the first occurrence of a nonempty separator in l: returns the
prefix through the separator (separator kept attached, trailing) and the
remainder.  An empty separator never matches. -/
def splitOnce (sep : List Char) : List Char → Option (List Char × List Char)
  | [] => none
  | c :: l =>
    if sep ≠ [] ∧ sep.isPrefixOf (c :: l) = true then
      some (sep, (c :: l).drop sep.length)
    else
      match splitOnce sep l with
      | some (a, b) => some (c :: a, b)
      | none => none

/-- Split l at every occurrence of sep, keeping the separator attached to
the sub-span it trails (keep-separator semantics, spec 4.2 step 5).
Fuel-driven so that it computes; fuel = length of the text suffices. -/
def splitKeepSepGo (sep : List Char) : Nat → List Char → List (List Char)
  | 0, l => if l = [] then [] else [l]
  | fuel + 1, l =>
    match splitOnce sep l with
    | none => if l = [] then [] else [l]
    | some (a, b) => a :: splitKeepSepGo sep fuel b

/-- Split on a separator with keep-separator semantics. -/
def splitKeepSep (sep l : List Char) : List (List Char) :=
  splitKeepSepGo sep l.length l

/-- Hard cut into pieces of at most cs characters (spec 4.2 step 4
fallback).  Fuel-driven; fuel = length of the text suffices. -/
def hardCutGo (cs : Nat) : Nat → List Char → List (List Char)
  | _, [] => []
  | 0, l => [l]
  | fuel + 1, c :: l => (c :: l.take (cs - 1)) :: hardCutGo cs fuel (l.drop (cs - 1))

/-- Hard cut a text into pieces of at most cs characters (cs positive). -/
def hardCut (cs : Nat) (l : List Char) : List (List Char) :=
  hardCutGo cs l.length l

/-- Recursive separator splitting (spec 4.2 steps 2, 4, 5): split the span
on the first separator of the priority list that actually appears; any
resulting sub-span still longer than cs is split again with the remaining
separators; when no separator remains (or none appears), hard-cut at cs.
A span already within cs is returned whole; an empty span produces
nothing. -/
def splitRec (cs : Nat) : List (List Char) → List Char → List (List Char)
  | [], text =>
    if text.length ≤ cs then (if text = [] then [] else [text])
    else hardCut cs text
  | sep :: rest, text =>
    if text.length ≤ cs then (if text = [] then [] else [text])
    else if (splitOnce sep text).isSome then
      ((splitKeepSep sep text).map
        (fun p => if p.length ≤ cs then [p] else splitRec cs rest p)).flatten
    else splitRec cs rest text

/-- Greedy merging of sub-spans into segments (spec 4.2 step 3): accumulate
sub-spans while the segment stays within cs; on closing a segment, the next
one starts by repeating the trailing co characters of the closed segment,
subject to not exceeding cs (the overlap is dropped when even the next
sub-span together with it would overflow). -/
def mergeAux (cs co : Nat) (cur : List Char) :
    List (List Char) → List (List Char)
  | [] => if cur = [] then [] else [cur]
  | p :: ps =>
    if (cur ++ p).length ≤ cs then mergeAux cs co (cur ++ p) ps
    else
      cur :: mergeAux cs co
        (if (takeRight co cur ++ p).length ≤ cs then takeRight co cur ++ p else p) ps

/-- Modelled from the spec: the segmenter (langchain
RecursiveCharacterTextSplitter, only configured at
src/application.py:113-118) — recursive separator splitting followed by
greedy merging with boundary overlap, per spec section 4.2. -/
def segmentText (cs co : Nat) (seps : List (List Char)) (text : List Char) :
    List (List Char) :=
  mergeAux cs co [] (splitRec cs seps text)

/-- The separator priority list configured at src/application.py:116. -/
def sourceSeparators : List (List Char) :=
  [['\n', '\n'], ['\n'], ['.', ' '], [' '], []]

/-- Chunk size configured at src/application.py:114. -/
def sourceChunkSize : Nat := 1500

/-- Chunk overlap configured at src/application.py:115. -/
def sourceChunkOverlap : Nat := 200

/-! ## Segmenter configuration validation (spec section 7)

Modelled from the spec: ConfigurationError is raised for invalid chunk
parameters before any text is processed; the validating constructor is
langchain library code, outside this repository. -/

/-- A validated segmenter configuration. -/
structure SegmenterConfig where
  chunkSize : Int
  chunkOverlap : Int
  deriving DecidableEq, Repr

/-- Modelled from the spec: the ConfigurationError of section 7 (the error
type is not in this repository) — invalid chunk parameters. -/
inductive ConfigurationError
  | invalidChunkParams (cs co : Int)
  deriving DecidableEq, Repr

/-- Modelled from the spec: segmenter construction validates the chunk
parameters and fails fast, before any input text is seen, when
chunk_size is non-positive or chunk_overlap is at least chunk_size. -/
def mkSegmenter (cs co : Int) : Except ConfigurationError SegmenterConfig :=
  if cs ≤ 0 ∨ cs ≤ co then Except.error (ConfigurationError.invalidChunkParams cs co)
  else Except.ok ⟨cs, co⟩

/-! ## Extraction (src/application.py, process_pdf and process_docx)

The control flow of process_pdf (lines 227-263) is embedded directly; the
two external pdf loaders (UnstructuredPDFLoader tried first, PyPDFLoader as
fallback) are parameters: each is either an error (the loader raised) or
the ordered list of page contents it produced. -/

/-- Tab normalization from src/application.py:255: every tab character is
replaced by a single space. -/
def normalizeTabs (l : List Char) : List Char :=
  l.map (fun c => if c = '\t' then ' ' else c)

/-- The fallback branch of process_pdf (src/application.py:248-253): load
with PyPDFLoader and concatenate the page contents in order; if the loader
raises, the exception propagates. -/
def pdfFallbackText (fb : Except (List Char) (List (List Char))) :
    Except (List Char) (List Char) :=
  match fb with
  | Except.error e => Except.error e
  | Except.ok pgs => Except.ok pgs.flatten

/-- The extraction part of process_pdf (src/application.py:236-253): try
the structure-aware loader first; if it raises, or if no page it returns
has non-empty content, fall back to the plain loader; otherwise concatenate
its page contents in order. -/
def extractPdfText (u fb : Except (List Char) (List (List Char))) :
    Except (List Char) (List Char) :=
  match u with
  | Except.error _ => pdfFallbackText fb
  | Except.ok pgs =>
    if pgs.all List.isEmpty then pdfFallbackText fb
    else Except.ok pgs.flatten

/-- process_pdf (src/application.py:227-263): extract the text, replace
tabs with spaces, and split with the advanced text splitter. -/
def process_pdf (u fb : Except (List Char) (List (List Char))) :
    Except (List Char) (List (List Char)) :=
  match extractPdfText u fb with
  | Except.error e => Except.error e
  | Except.ok t =>
    Except.ok (segmentText sourceChunkSize sourceChunkOverlap sourceSeparators
      (normalizeTabs t))

/-- process_docx (src/application.py:214-225): the result of the docx
loader's load_and_split is returned unchanged — no tab normalization and no
pass through the advanced text splitter. -/
def process_docx (loaded : List (List Char)) : List (List Char) :=
  loaded

/-- Concatenate segments after dropping a given number of duplicated
leading characters from each (the per-boundary overlap amounts). -/
def dropJoin (ss : List (List Char)) (ds : List Nat) : List Char :=
  ((ss.zip ds).map (fun q => q.1.drop q.2)).flatten

/-- Concatenate segments keeping the first whole and dropping the given
duplicated overlap prefix from each later segment. -/
def stripFirst : List (List Char) → List Nat → List Char
  | [], _ => []
  | s :: rest, ds => s ++ dropJoin rest ds

/-! ## Lemmas about the refine accumulator -/

theorem refineAux_log (it rt : List TmplPart) (g : List Char → List Char) :
    ∀ (segs : List (List Char)) (cur : List Char) (steps : List (List Char))
      (idx : Nat),
      (refineAux it rt (fun _ p => Except.ok (g p)) cur steps idx segs).2 =
        refineLog it rt g cur idx segs := by
  intro segs
  induction segs with
  | nil => intro cur steps idx; rfl
  | cons s rest ih =>
    intro cur steps idx
    simp only [refineAux, refineLog]
    exact congrArg _ (ih _ _ _)

theorem refineLog_length (it rt : List TmplPart) (g : List Char → List Char) :
    ∀ (segs : List (List Char)) (cur : List Char) (idx : Nat),
      (refineLog it rt g cur idx segs).length = segs.length := by
  intro segs
  induction segs with
  | nil => intro cur idx; rfl
  | cons s rest ih =>
    intro cur idx
    simp only [refineLog, List.length_cons]
    exact congrArg _ (ih _ _)

theorem refineLog_head (it rt : List TmplPart) (g : List Char → List Char)
    (s : List Char) (rest : List (List Char)) (cur : List Char) :
    (refineLog it rt g cur 0 (s :: rest)).getD 0 [] = render it [] s := rfl

theorem refineLog_chain (it rt : List TmplPart) (g : List Char → List Char) :
    ∀ (segs : List (List Char)) (cur : List Char) (idx i : Nat),
      i + 1 < segs.length →
      (refineLog it rt g cur idx segs).getD (i + 1) [] =
        render rt (g ((refineLog it rt g cur idx segs).getD i []))
          (segs.getD (i + 1) []) := by
  intro segs
  induction segs with
  | nil => intro cur idx i hi; simp at hi
  | cons s rest ih =>
    intro cur idx i hi
    match i with
    | 0 =>
      match rest with
      | [] => simp at hi
      | s1 :: rest1 =>
        simp only [refineLog, List.getD_cons_succ, List.getD_cons_zero]
        simp [Nat.succ_ne_zero]
    | j + 1 =>
      simp only [refineLog, List.getD_cons_succ]
      exact ih _ _ j (by simpa using hi)

theorem render_infixOf (rt : List TmplPart) (cur text : List Char)
    (h : TmplPart.phExisting ∈ rt) : infixOf cur (render rt cur text) := by
  obtain ⟨pre, post, rfl⟩ := List.append_of_mem h
  refine ⟨(pre.map (renderPart cur text)).flatten,
    (post.map (renderPart cur text)).flatten, ?_⟩
  simp [render, renderPart, List.flatten_append]

theorem refineAux_fail (it rt : List TmplPart)
    (gen : Nat → List Char → Except (List Char) (List Char))
    (g : Nat → List Char → List Char) (c : List Char) :
    ∀ (rest : List (List Char)) (i : Nat) (cur : List Char)
      (steps : List (List Char)) (idx : Nat),
      i < rest.length →
      (∀ j p, j < idx + i → gen j p = Except.ok (g j p)) →
      (∀ p, gen (idx + i) p = Except.error c) →
      ∃ st, (refineAux it rt gen cur steps idx rest).1 =
              Except.error ⟨idx + i, st, c⟩ ∧
            st.length = steps.length + i ∧
            (refineAux it rt gen cur steps idx rest).2.length = i + 1 := by
  intro rest
  induction rest with
  | nil => intro i cur steps idx hi; simp at hi
  | cons s rest1 ih =>
    intro i cur steps idx hi hok hfail
    match i with
    | 0 =>
      simp only [Nat.add_zero] at hfail ⊢
      refine ⟨steps, ?_, by simp, ?_⟩
      · simp only [refineAux]
        rw [hfail]
      · simp only [refineAux]
        rw [hfail]
        simp
    | m + 1 =>
      have hcall : ∀ p, gen idx p = Except.ok (g idx p) := fun p =>
        hok idx p (by omega)
      obtain ⟨st, h1, h2, h3⟩ := ih m
        (g idx (if idx = 0 then render it [] s else render rt cur s))
        (steps ++ [g idx (if idx = 0 then render it [] s else render rt cur s)])
        (idx + 1) (by simpa using hi)
        (fun j p hj => hok j p (by omega))
        (fun p => by rw [show idx + 1 + m = idx + (m + 1) by omega]; exact hfail p)
      refine ⟨st, ?_, ?_, ?_⟩
      · simp only [refineAux]
        rw [hcall]
        simpa [show idx + 1 + m = idx + (m + 1) by omega] using h1
      · simp only [List.length_append, List.length_cons, List.length_nil] at h2
        omega
      · simp only [refineAux]
        rw [hcall]
        simp only [List.length_cons]
        omega

/-! ## Claim theorems for the refine accumulator -/

/-- C2: with a deterministic, always-succeeding generate function, refine
issues exactly one generate call per segment, in segment order (the first
prompt renders the initial template over segment 0, and the prompt of call
i renders the refine template over segment i and the answer returned by
call i-1); when the refine template embeds the existing-answer placeholder,
every prompt after the first contains the string returned by the previous
call; and on a concrete instance, reordering the segments changes the final
answer. -/
theorem c2_refine_sequential_order (it rt : List TmplPart)
    (g : List Char → List Char) (segs : List (List Char))
    (hrt : TmplPart.phExisting ∈ rt) :
    (refine it rt (fun _ p => Except.ok (g p)) segs).2.length = segs.length ∧
    (∀ s rest, segs = s :: rest →
      (refine it rt (fun _ p => Except.ok (g p)) segs).2.getD 0 [] =
        render it [] s) ∧
    (∀ i, i + 1 < segs.length →
      (refine it rt (fun _ p => Except.ok (g p)) segs).2.getD (i + 1) [] =
        render rt (g ((refine it rt (fun _ p => Except.ok (g p)) segs).2.getD i []))
          (segs.getD (i + 1) [])) ∧
    (∀ i, i + 1 < segs.length →
      infixOf (g ((refine it rt (fun _ p => Except.ok (g p)) segs).2.getD i []))
        ((refine it rt (fun _ p => Except.ok (g p)) segs).2.getD (i + 1) [])) ∧
    (refine [TmplPart.phText]
        [TmplPart.lit ['R'], TmplPart.phExisting, TmplPart.lit ['|'], TmplPart.phText]
        (fun _ p => Except.ok ('g' :: p)) [['A'], ['B']]).1 ≠
      (refine [TmplPart.phText]
        [TmplPart.lit ['R'], TmplPart.phExisting, TmplPart.lit ['|'], TmplPart.phText]
        (fun _ p => Except.ok ('g' :: p)) [['B'], ['A']]).1 := by
  have hlog : (refine it rt (fun _ p => Except.ok (g p)) segs).2 =
      refineLog it rt g [] 0 segs := refineAux_log it rt g segs [] [] 0
  refine ⟨?_, ?_, ?_, ?_, by decide⟩
  · rw [hlog]; exact refineLog_length it rt g segs [] 0
  · intro s rest hs
    subst hs
    rw [hlog]
    exact refineLog_head it rt g s rest []
  · intro i hi
    rw [hlog]
    exact refineLog_chain it rt g segs [] 0 i hi
  · intro i hi
    rw [hlog, refineLog_chain it rt g segs [] 0 i hi]
    exact render_infixOf rt _ _ hrt

/-- Witness for C2 at a concrete instance: the source-shaped refine
template embeds the existing-answer placeholder, three segments. -/
theorem c2_refine_sequential_order_witness :
    TmplPart.phExisting ∈
        [TmplPart.lit ['R'], TmplPart.phExisting, TmplPart.phText] ∧
    ((refine [TmplPart.phText]
        [TmplPart.lit ['R'], TmplPart.phExisting, TmplPart.phText]
        (fun _ p => Except.ok ('g' :: p)) [['A'], ['B'], ['C']]).2.length =
      ([['A'], ['B'], ['C']] : List (List Char)).length ∧
    (∀ s rest, ([['A'], ['B'], ['C']] : List (List Char)) = s :: rest →
      (refine [TmplPart.phText]
        [TmplPart.lit ['R'], TmplPart.phExisting, TmplPart.phText]
        (fun _ p => Except.ok ('g' :: p)) [['A'], ['B'], ['C']]).2.getD 0 [] =
        render [TmplPart.phText] [] s) ∧
    (∀ i, i + 1 < ([['A'], ['B'], ['C']] : List (List Char)).length →
      (refine [TmplPart.phText]
        [TmplPart.lit ['R'], TmplPart.phExisting, TmplPart.phText]
        (fun _ p => Except.ok ('g' :: p)) [['A'], ['B'], ['C']]).2.getD (i + 1) [] =
        render [TmplPart.lit ['R'], TmplPart.phExisting, TmplPart.phText]
          ('g' :: ((refine [TmplPart.phText]
            [TmplPart.lit ['R'], TmplPart.phExisting, TmplPart.phText]
            (fun _ p => Except.ok ('g' :: p)) [['A'], ['B'], ['C']]).2.getD i []))
          (([['A'], ['B'], ['C']] : List (List Char)).getD (i + 1) [])) ∧
    (∀ i, i + 1 < ([['A'], ['B'], ['C']] : List (List Char)).length →
      infixOf ('g' :: ((refine [TmplPart.phText]
          [TmplPart.lit ['R'], TmplPart.phExisting, TmplPart.phText]
          (fun _ p => Except.ok ('g' :: p)) [['A'], ['B'], ['C']]).2.getD i []))
        ((refine [TmplPart.phText]
          [TmplPart.lit ['R'], TmplPart.phExisting, TmplPart.phText]
          (fun _ p => Except.ok ('g' :: p)) [['A'], ['B'], ['C']]).2.getD (i + 1) [])) ∧
    (refine [TmplPart.phText]
        [TmplPart.lit ['R'], TmplPart.phExisting, TmplPart.lit ['|'], TmplPart.phText]
        (fun _ p => Except.ok ('g' :: p)) [['A'], ['B']]).1 ≠
      (refine [TmplPart.phText]
        [TmplPart.lit ['R'], TmplPart.phExisting, TmplPart.lit ['|'], TmplPart.phText]
        (fun _ p => Except.ok ('g' :: p)) [['B'], ['A']]).1) :=
  ⟨by decide,
    c2_refine_sequential_order [TmplPart.phText]
      [TmplPart.lit ['R'], TmplPart.phExisting, TmplPart.phText]
      (fun p => 'g' :: p) [['A'], ['B'], ['C']] (by decide)⟩

/-- C3: if the generate function succeeds on every call before index i and
fails on the call for segment index i (i within range), refine fails with a
GenerationError carrying index i and exactly i partial steps, and exactly
i + 1 prompts were issued (the failing segment is attempted, never
skipped). -/
theorem c3_refine_failure (it rt : List TmplPart)
    (gen : Nat → List Char → Except (List Char) (List Char))
    (g : Nat → List Char → List Char) (c : List Char)
    (segs : List (List Char)) (i : Nat) (hi : i < segs.length)
    (hok : ∀ j p, j < i → gen j p = Except.ok (g j p))
    (hfail : ∀ p, gen i p = Except.error c) :
    ∃ st, (refine it rt gen segs).1 = Except.error ⟨i, st, c⟩ ∧
          st.length = i ∧
          (refine it rt gen segs).2.length = i + 1 := by
  obtain ⟨st, h1, h2, h3⟩ := refineAux_fail it rt gen g c segs i [] [] 0 hi
    (fun j p hj => hok j p (by omega))
    (fun p => by simpa using hfail p)
  exact ⟨st, by simpa using h1, by simpa using h2, h3⟩

/-- Witness for C3: a stub generate that fails on segment index 1 of 3
segments yields a GenerationError referencing index 1 with exactly one
partial step, after issuing exactly two prompts. -/
theorem c3_refine_failure_witness :
    ∃ st, (refine [TmplPart.phText] [TmplPart.phExisting, TmplPart.phText]
        (fun j p => if j = 1 then Except.error ['E'] else Except.ok ('g' :: p))
        [['A'], ['B'], ['C']]).1 = Except.error ⟨1, st, ['E']⟩ ∧
      st.length = 1 ∧
      (refine [TmplPart.phText] [TmplPart.phExisting, TmplPart.phText]
        (fun j p => if j = 1 then Except.error ['E'] else Except.ok ('g' :: p))
        [['A'], ['B'], ['C']]).2.length = 1 + 1 :=
  c3_refine_failure [TmplPart.phText] [TmplPart.phExisting, TmplPart.phText]
    (fun j p => if j = 1 then Except.error ['E'] else Except.ok ('g' :: p))
    (fun _ p => 'g' :: p) ['E'] [['A'], ['B'], ['C']] 1 (by decide)
    (fun j p hj => by
      have hj0 : j = 0 := by omega
      subst hj0
      simp)
    (fun p => by simp)

/-- C8: on the empty segment sequence, refine returns the empty final
answer and the empty steps log, and issues no generate call at all (the
prompt log is empty). -/
theorem c8_refine_empty (it rt : List TmplPart)
    (gen : Nat → List Char → Except (List Char) (List Char)) :
    refine it rt gen [] = (Except.ok ([], []), []) := rfl

/-! ## Lemmas about the segmenter -/

theorem takeRight_length_le (n : Nat) (l : List Char) :
    (takeRight n l).length ≤ n := by
  simp only [takeRight, List.length_drop]
  omega

theorem splitOnce_eq (sep : List Char) :
    ∀ (l a b : List Char), splitOnce sep l = some (a, b) →
      a ++ b = l ∧ a ≠ [] := by
  intro l
  induction l with
  | nil => intro a b h; simp [splitOnce] at h
  | cons c l ih =>
    intro a b h
    by_cases hp : sep ≠ [] ∧ sep.isPrefixOf (c :: l) = true
    · rw [splitOnce, if_pos hp] at h
      simp only [Option.some.injEq, Prod.mk.injEq] at h
      obtain ⟨h1, h2⟩ := h
      subst h1
      subst h2
      obtain ⟨t, ht⟩ := List.isPrefixOf_iff_prefix.mp hp.2
      refine ⟨?_, hp.1⟩
      rw [← ht, List.drop_left]
    · rw [splitOnce, if_neg hp] at h
      cases hs : splitOnce sep l with
      | none => rw [hs] at h; simp at h
      | some ab =>
        obtain ⟨a0, b0⟩ := ab
        rw [hs] at h
        simp only [Option.some.injEq, Prod.mk.injEq] at h
        obtain ⟨ha, hb⟩ := h
        obtain ⟨hab, _⟩ := ih a0 b0 hs
        subst ha
        subst hb
        exact ⟨by simpa using congrArg (c :: ·) hab, by simp⟩

theorem splitKeepSepGo_flatten (sep : List Char) :
    ∀ (fuel : Nat) (l : List Char),
      (splitKeepSepGo sep fuel l).flatten = l := by
  intro fuel
  induction fuel with
  | zero =>
    intro l
    by_cases hl : l = [] <;> simp [splitKeepSepGo, hl]
  | succ fuel ih =>
    intro l
    cases hs : splitOnce sep l with
    | none =>
      by_cases hl : l = [] <;> simp [splitKeepSepGo, hs, hl, splitOnce]
    | some ab =>
      obtain ⟨a, b⟩ := ab
      obtain ⟨hab, _⟩ := splitOnce_eq sep l a b hs
      simp [splitKeepSepGo, hs, ih b, hab]

theorem splitKeepSep_flatten (sep l : List Char) :
    (splitKeepSep sep l).flatten = l :=
  splitKeepSepGo_flatten sep l.length l

theorem hardCutGo_flatten (cs : Nat) :
    ∀ (fuel : Nat) (l : List Char), (hardCutGo cs fuel l).flatten = l := by
  intro fuel
  induction fuel with
  | zero => intro l; cases l <;> simp [hardCutGo]
  | succ fuel ih =>
    intro l
    cases l with
    | nil => simp [hardCutGo]
    | cons c l =>
      simp only [hardCutGo, List.flatten_cons, ih (l.drop (cs - 1))]
      simp [List.take_append_drop]

theorem flatten_map_flatten (f : List Char → List (List Char)) :
    ∀ (ps : List (List Char)), (∀ p ∈ ps, (f p).flatten = p) →
      ((ps.map f).flatten).flatten = ps.flatten := by
  intro ps
  induction ps with
  | nil => intro _; simp
  | cons p ps ih =>
    intro h
    simp only [List.map_cons, List.flatten_cons, List.flatten_append]
    rw [h p (by simp), ih (fun q hq => h q (by simp [hq]))]

theorem hardCutGo_length_le (cs : Nat) (hcs : 1 ≤ cs) :
    ∀ (fuel : Nat) (l : List Char), l.length ≤ fuel →
      ∀ p ∈ hardCutGo cs fuel l, p.length ≤ cs := by
  intro fuel
  induction fuel with
  | zero =>
    intro l hl p hp
    cases l with
    | nil => simp [hardCutGo] at hp
    | cons c l => simp at hl
  | succ fuel ih =>
    intro l hl p hp
    cases l with
    | nil => simp [hardCutGo] at hp
    | cons c l =>
      simp only [hardCutGo, List.mem_cons] at hp
      cases hp with
      | inl h =>
        subst h
        simp only [List.length_cons, List.length_take]
        omega
      | inr h =>
        refine ih (l.drop (cs - 1)) ?_ p h
        simp only [List.length_drop]
        simp only [List.length_cons] at hl
        omega

theorem splitRec_flatten (cs : Nat) :
    ∀ (seps : List (List Char)) (text : List Char),
      (splitRec cs seps text).flatten = text := by
  intro seps
  induction seps with
  | nil =>
    intro text
    rw [splitRec]
    by_cases h1 : text.length ≤ cs
    · rw [if_pos h1]
      by_cases h2 : text = [] <;> simp [h2]
    · rw [if_neg h1]
      simp only [hardCut]
      exact hardCutGo_flatten cs text.length text
  | cons sep rest ih =>
    intro text
    rw [splitRec]
    by_cases h1 : text.length ≤ cs
    · rw [if_pos h1]
      by_cases h2 : text = [] <;> simp [h2]
    · rw [if_neg h1]
      by_cases h3 : (splitOnce sep text).isSome = true
      · rw [if_pos h3]
        rw [flatten_map_flatten]
        · exact splitKeepSep_flatten sep text
        · intro p hp
          by_cases h4 : p.length ≤ cs
          · rw [if_pos h4]; simp
          · rw [if_neg h4]; exact ih p
      · rw [if_neg h3]
        exact ih text

theorem splitRec_length_le (cs : Nat) (hcs : 1 ≤ cs) :
    ∀ (seps : List (List Char)) (text : List Char),
      ∀ p ∈ splitRec cs seps text, p.length ≤ cs := by
  intro seps
  induction seps with
  | nil =>
    intro text p hp
    rw [splitRec] at hp
    by_cases h1 : text.length ≤ cs
    · rw [if_pos h1] at hp
      by_cases h2 : text = []
      · simp [h2] at hp
      · rw [if_neg h2] at hp
        simp only [List.mem_singleton] at hp
        subst hp
        exact h1
    · rw [if_neg h1] at hp
      simp only [hardCut] at hp
      exact hardCutGo_length_le cs hcs text.length text le_rfl p hp
  | cons sep rest ih =>
    intro text p hp
    rw [splitRec] at hp
    by_cases h1 : text.length ≤ cs
    · rw [if_pos h1] at hp
      by_cases h2 : text = []
      · simp [h2] at hp
      · rw [if_neg h2] at hp
        simp only [List.mem_singleton] at hp
        subst hp
        exact h1
    · rw [if_neg h1] at hp
      by_cases h3 : (splitOnce sep text).isSome = true
      · rw [if_pos h3] at hp
        rw [List.mem_flatten] at hp
        obtain ⟨l, hl, hpl⟩ := hp
        rw [List.mem_map] at hl
        obtain ⟨q, hq, rfl⟩ := hl
        by_cases h4 : q.length ≤ cs
        · rw [if_pos h4] at hpl
          simp only [List.mem_singleton] at hpl
          subst hpl
          exact h4
        · rw [if_neg h4] at hpl
          exact ih q p hpl
      · rw [if_neg h3] at hp
        exact ih text p hp

theorem mergeAux_length_le (cs co : Nat) :
    ∀ (ps : List (List Char)) (cur : List Char), cur.length ≤ cs →
      (∀ p ∈ ps, p.length ≤ cs) →
      ∀ s ∈ mergeAux cs co cur ps, s.length ≤ cs := by
  intro ps
  induction ps with
  | nil =>
    intro cur hcur _ s hs
    rw [mergeAux] at hs
    by_cases h : cur = []
    · rw [if_pos h] at hs; simp at hs
    · rw [if_neg h] at hs
      simp only [List.mem_singleton] at hs
      subst hs
      exact hcur
  | cons p ps ih =>
    intro cur hcur hps s hs
    rw [mergeAux] at hs
    by_cases hf : (cur ++ p).length ≤ cs
    · rw [if_pos hf] at hs
      exact ih (cur ++ p) hf (fun q hq => hps q (by simp [hq])) s hs
    · rw [if_neg hf] at hs
      rcases List.mem_cons.mp hs with rfl | hs
      · exact hcur
      · by_cases hov : (takeRight co cur ++ p).length ≤ cs
        · rw [if_pos hov] at hs
          exact ih _ hov (fun q hq => hps q (by simp [hq])) s hs
        · rw [if_neg hov] at hs
          exact ih p (hps p (by simp)) (fun q hq => hps q (by simp [hq])) s hs

theorem mergeAux_head_prefix (cs co : Nat) :
    ∀ (ps : List (List Char)) (cur s : List Char) (rest : List (List Char)),
      mergeAux cs co cur ps = s :: rest → cur <+: s := by
  intro ps
  induction ps with
  | nil =>
    intro cur s rest h
    rw [mergeAux] at h
    by_cases hc : cur = []
    · rw [if_pos hc] at h; simp at h
    · rw [if_neg hc] at h
      simp only [List.cons.injEq] at h
      obtain ⟨rfl, -⟩ := h
      exact List.prefix_rfl
  | cons p ps ih =>
    intro cur s rest h
    rw [mergeAux] at h
    by_cases hf : (cur ++ p).length ≤ cs
    · rw [if_pos hf] at h
      exact (List.prefix_append cur p).trans (ih (cur ++ p) s rest h)
    · rw [if_neg hf] at h
      simp only [List.cons.injEq] at h
      obtain ⟨rfl, -⟩ := h
      exact List.prefix_rfl

theorem mergeAux_chain (cs co : Nat) :
    ∀ (ps : List (List Char)) (cur : List Char),
      List.Chain' (fun s1 s2 =>
        (takeRight co s1).isPrefixOf s2 = true ∨ cs < co + s2.length)
        (mergeAux cs co cur ps) := by
  intro ps
  induction ps with
  | nil =>
    intro cur
    rw [mergeAux]
    by_cases hc : cur = []
    · rw [if_pos hc]; exact List.chain'_nil
    · rw [if_neg hc]; exact List.chain'_singleton _
  | cons p ps ih =>
    intro cur
    rw [mergeAux]
    by_cases hf : (cur ++ p).length ≤ cs
    · rw [if_pos hf]; exact ih (cur ++ p)
    · rw [if_neg hf]
      rw [List.chain'_cons']
      refine ⟨?_, ih _⟩
      intro y hy
      cases hM : mergeAux cs co
          (if (takeRight co cur ++ p).length ≤ cs then takeRight co cur ++ p else p)
          ps with
      | nil => rw [hM] at hy; simp at hy
      | cons s r =>
        rw [hM] at hy
        simp only [List.head?_cons, Option.mem_def, Option.some.injEq] at hy
        subst hy
        have hpre := mergeAux_head_prefix cs co ps _ s r hM
        by_cases hov : (takeRight co cur ++ p).length ≤ cs
        · rw [if_pos hov] at hpre
          left
          exact List.isPrefixOf_iff_prefix.mpr
            ((List.prefix_append (takeRight co cur) p).trans hpre)
        · rw [if_neg hov] at hpre
          right
          have h1 : (takeRight co cur).length ≤ co := takeRight_length_le co cur
          have h2 : p.length ≤ s.length := hpre.length_le
          simp only [List.length_append] at hov
          omega

theorem mergeAux_chars (cs co : Nat) :
    ∀ (ps : List (List Char)) (cur s : List Char), s ∈ mergeAux cs co cur ps →
      ∀ c ∈ s, c ∈ cur ∨ ∃ p ∈ ps, c ∈ p := by
  intro ps
  induction ps with
  | nil =>
    intro cur s hs c hc
    rw [mergeAux] at hs
    by_cases h : cur = []
    · rw [if_pos h] at hs; simp at hs
    · rw [if_neg h] at hs
      simp only [List.mem_singleton] at hs
      subst hs
      exact Or.inl hc
  | cons p ps ih =>
    intro cur s hs c hc
    rw [mergeAux] at hs
    by_cases hf : (cur ++ p).length ≤ cs
    · rw [if_pos hf] at hs
      rcases ih (cur ++ p) s hs c hc with h | ⟨q, hq, hcq⟩
      · rcases List.mem_append.mp h with h | h
        · exact Or.inl h
        · exact Or.inr ⟨p, by simp, h⟩
      · exact Or.inr ⟨q, by simp [hq], hcq⟩
    · rw [if_neg hf] at hs
      rcases List.mem_cons.mp hs with rfl | hs
      · exact Or.inl hc
      · by_cases hov : (takeRight co cur ++ p).length ≤ cs
        · rw [if_pos hov] at hs
          rcases ih _ s hs c hc with h | ⟨q, hq, hcq⟩
          · rcases List.mem_append.mp h with h | h
            · exact Or.inl (List.drop_subset _ cur h)
            · exact Or.inr ⟨p, by simp, h⟩
          · exact Or.inr ⟨q, by simp [hq], hcq⟩
        · rw [if_neg hov] at hs
          rcases ih p s hs c hc with h | ⟨q, hq, hcq⟩
          · exact Or.inr ⟨p, by simp, h⟩
          · exact Or.inr ⟨q, by simp [hq], hcq⟩

theorem dropJoin_cons (s : List Char) (r : List (List Char)) (d : Nat)
    (ds : List Nat) :
    dropJoin (s :: r) (d :: ds) = s.drop d ++ dropJoin r ds := rfl

theorem mergeAux_reconstruct (cs co : Nat) :
    ∀ (ps : List (List Char)) (cur : List Char),
      ∃ ds, ds.length = (mergeAux cs co cur ps).length - 1 ∧
        (∀ d ∈ ds, d ≤ co) ∧
        stripFirst (mergeAux cs co cur ps) ds = cur ++ ps.flatten := by
  intro ps
  induction ps with
  | nil =>
    intro cur
    by_cases hc : cur = []
    · subst hc
      exact ⟨[], by simp [mergeAux], by simp, by simp [mergeAux, stripFirst]⟩
    · refine ⟨[], ?_, by simp, ?_⟩
      · rw [mergeAux, if_neg hc]; simp
      · rw [mergeAux, if_neg hc]
        simp [stripFirst, dropJoin]
  | cons p ps ih =>
    intro cur
    by_cases hf : (cur ++ p).length ≤ cs
    · obtain ⟨ds, hlen, hle, heq⟩ := ih (cur ++ p)
      refine ⟨ds, ?_, hle, ?_⟩
      · rw [mergeAux, if_pos hf]; exact hlen
      · rw [mergeAux, if_pos hf, heq]; simp
    · by_cases hov : (takeRight co cur ++ p).length ≤ cs
      · obtain ⟨ds, hlen, hle, heq⟩ := ih (takeRight co cur ++ p)
        cases hM : mergeAux cs co (takeRight co cur ++ p) ps with
        | nil =>
          rw [hM] at heq
          simp only [stripFirst] at heq
          have hnil := heq.symm
          rw [List.append_eq_nil] at hnil
          obtain ⟨h1, h2⟩ := hnil
          rw [List.append_eq_nil] at h1
          refine ⟨[], ?_, by simp, ?_⟩
          · rw [mergeAux, if_neg hf, if_pos hov, hM]
            simp
          · rw [mergeAux, if_neg hf, if_pos hov, hM]
            simp [stripFirst, dropJoin, h1.2, h2]
        | cons s r =>
          rw [hM] at heq hlen
          simp only [stripFirst] at heq
          have hpre := mergeAux_head_prefix cs co ps _ s r hM
          have hlen0 : (takeRight co cur).length ≤ s.length :=
            le_trans (by simp) hpre.length_le
          have hdrop := congrArg (List.drop (takeRight co cur).length) heq
          rw [List.drop_append_of_le_length hlen0, List.append_assoc,
            List.drop_left] at hdrop
          refine ⟨(takeRight co cur).length :: ds, ?_, ?_, ?_⟩
          · rw [mergeAux, if_neg hf, if_pos hov, hM]
            simp only [List.length_cons] at hlen ⊢
            omega
          · intro d hd
            rcases List.mem_cons.mp hd with rfl | hd
            · exact takeRight_length_le co cur
            · exact hle d hd
          · rw [mergeAux, if_neg hf, if_pos hov, hM]
            simp only [stripFirst, dropJoin_cons, List.flatten_cons]
            rw [hdrop]
      · obtain ⟨ds, hlen, hle, heq⟩ := ih p
        cases hM : mergeAux cs co p ps with
        | nil =>
          rw [hM] at heq
          simp only [stripFirst] at heq
          have hnil := heq.symm
          rw [List.append_eq_nil] at hnil
          obtain ⟨h1, h2⟩ := hnil
          refine ⟨[], ?_, by simp, ?_⟩
          · rw [mergeAux, if_neg hf, if_neg hov, hM]
            simp
          · rw [mergeAux, if_neg hf, if_neg hov, hM]
            simp [stripFirst, dropJoin, h1, h2]
        | cons s r =>
          rw [hM] at heq hlen
          simp only [stripFirst] at heq
          refine ⟨0 :: ds, ?_, ?_, ?_⟩
          · rw [mergeAux, if_neg hf, if_neg hov, hM]
            simp only [List.length_cons] at hlen ⊢
            omega
          · intro d hd
            rcases List.mem_cons.mp hd with rfl | hd
            · exact Nat.zero_le co
            · exact hle d hd
          · rw [mergeAux, if_neg hf, if_neg hov, hM]
            simp only [stripFirst, dropJoin_cons, List.flatten_cons, List.drop_zero]
            rw [heq]

theorem segmentText_length_le (cs co : Nat) (seps : List (List Char))
    (text : List Char) (h : co < cs) :
    ∀ s ∈ segmentText cs co seps text, s.length ≤ cs := by
  have hcs : 1 ≤ cs := by omega
  intro s hs
  exact mergeAux_length_le cs co (splitRec cs seps text) [] (by simp)
    (splitRec_length_le cs hcs seps text) s hs

theorem segmentText_chars (cs co : Nat) (seps : List (List Char))
    (text : List Char) (s : List Char) (hs : s ∈ segmentText cs co seps text)
    (c : Char) (hc : c ∈ s) : c ∈ text := by
  rcases mergeAux_chars cs co (splitRec cs seps text) [] s hs c hc with
    h | ⟨p, hp, hcp⟩
  · simp at h
  · have hmem : c ∈ (splitRec cs seps text).flatten :=
      List.mem_flatten.mpr ⟨p, hp, hcp⟩
    rwa [splitRec_flatten] at hmem

theorem normalizeTabs_no_tab (l : List Char) : '\t' ∉ normalizeTabs l := by
  intro h
  rw [normalizeTabs, List.mem_map] at h
  obtain ⟨c0, _, hc0⟩ := h
  by_cases h0 : c0 = '\t'
  · rw [if_pos h0] at hc0
    exact (by decide : (' ' : Char) ≠ '\t') hc0
  · rw [if_neg h0] at hc0
    exact h0 hc0

/-! ## Claim theorems for the segmenter, extraction and configuration -/

/-- C1: for every chunk configuration with chunk_overlap < chunk_size (in
the source, chunk_size 1500 and chunk_overlap 200), every segment produced
by the segmenter from any input text has length at most chunk_size
characters. -/
theorem c1_segment_length_bounded (cs co : Nat) (seps : List (List Char))
    (text : List Char) (h : co < cs) :
    ∀ s ∈ segmentText cs co seps text, s.length ≤ cs :=
  segmentText_length_le cs co seps text h

/-- Witness for C1 at the source configuration on a concrete text. -/
theorem c1_segment_length_bounded_witness :
    200 < 1500 ∧ (['t', 'i', 'n', 'y'] : List Char).length ≤ 1500 :=
  ⟨by decide,
    c1_segment_length_bounded 1500 200 sourceSeparators ['t', 'i', 'n', 'y']
      (by decide) ['t', 'i', 'n', 'y'] (by decide)⟩

/-- Counterexample for C4: with chunk_size 5, chunk_overlap 3 (a
configuration with chunk_overlap < chunk_size) and separator list of the
single space, the input text aaaa-space-bbbb produces two segments and the
second does not begin with the trailing 3 characters of the first: the
overlap is dropped because it would not fit within chunk_size. -/
theorem c4_counterexample :
    1 < (segmentText 5 3 [[' ']]
        ['a', 'a', 'a', 'a', ' ', 'b', 'b', 'b', 'b']).length ∧
    ¬ ((takeRight 3 ((segmentText 5 3 [[' ']]
          ['a', 'a', 'a', 'a', ' ', 'b', 'b', 'b', 'b']).getD 0 [])).isPrefixOf
        ((segmentText 5 3 [[' ']]
          ['a', 'a', 'a', 'a', ' ', 'b', 'b', 'b', 'b']).getD 1 []) = true) := by
  decide

/-- C4 (amended): at every boundary between consecutive segments, either
the later segment begins with the trailing chunk_overlap characters of its
predecessor, or the overlap was dropped because prefixing it would exceed
chunk_size (in which case the overlap length plus the later segment's
length exceeds chunk_size) — the boundary overlap is best-effort, not
unconditional. -/
theorem c4_overlap_best_effort (cs co : Nat) (seps : List (List Char))
    (text : List Char) :
    List.Chain' (fun s1 s2 =>
      (takeRight co s1).isPrefixOf s2 = true ∨ cs < co + s2.length)
      (segmentText cs co seps text) :=
  mergeAux_chain cs co (splitRec cs seps text) []

/-- C7: splitting loses nothing (separators are kept attached, so the
sub-spans concatenate back to the input), and for every non-empty input
text the segments concatenate back to the input once the duplicated
overlap prefix (at most chunk_overlap characters, dropped from each
segment after the first) is removed at each boundary. -/
theorem c7_reconstruction (cs co : Nat) (seps : List (List Char))
    (text : List Char) (hne : text ≠ []) :
    (splitRec cs seps text).flatten = text ∧
    ∃ s rest ds, segmentText cs co seps text = s :: rest ∧
      ds.length = rest.length ∧ (∀ d ∈ ds, d ≤ co) ∧
      s ++ dropJoin rest ds = text := by
  have hseg : segmentText cs co seps text =
      mergeAux cs co [] (splitRec cs seps text) := rfl
  refine ⟨splitRec_flatten cs seps text, ?_⟩
  obtain ⟨ds, hlen, hle, heq⟩ :=
    mergeAux_reconstruct cs co (splitRec cs seps text) []
  rw [← hseg] at hlen heq
  rw [List.nil_append, splitRec_flatten cs seps text] at heq
  cases hM : segmentText cs co seps text with
  | nil =>
    exfalso
    rw [hM] at heq
    simp only [stripFirst] at heq
    exact hne heq.symm
  | cons s rest =>
    rw [hM] at heq hlen
    refine ⟨s, rest, ds, rfl, ?_, hle, ?_⟩
    · simpa using hlen
    · simpa only [stripFirst] using heq

/-- Witness for C7 on a concrete non-empty text. -/
theorem c7_reconstruction_witness :
    (['a', 'b', ' ', 'c', 'd'] : List Char) ≠ [] ∧
    ((splitRec 5 [[' ']] ['a', 'b', ' ', 'c', 'd']).flatten =
        ['a', 'b', ' ', 'c', 'd'] ∧
      ∃ s rest ds, segmentText 5 3 [[' ']] ['a', 'b', ' ', 'c', 'd'] = s :: rest ∧
        ds.length = rest.length ∧ (∀ d ∈ ds, d ≤ 3) ∧
        s ++ dropJoin rest ds = ['a', 'b', ' ', 'c', 'd']) :=
  ⟨by decide,
    c7_reconstruction 5 3 [[' ']] ['a', 'b', ' ', 'c', 'd'] (by decide)⟩

/-- C5: pdf extraction attempts the structure-aware loader first; exactly
when that loader raises or yields no non-empty page does it fall back to
the plain loader; in every case the extracted text is the chosen loader's
page contents concatenated in source order. -/
theorem c5_pdf_structure_first_fallback
    (u fb : Except (List Char) (List (List Char))) :
    (∀ pgs, u = Except.ok pgs → pgs.all List.isEmpty = false →
      extractPdfText u fb = Except.ok pgs.flatten) ∧
    (∀ pgs, u = Except.ok pgs → pgs.all List.isEmpty = true →
      extractPdfText u fb = pdfFallbackText fb) ∧
    (∀ e, u = Except.error e → extractPdfText u fb = pdfFallbackText fb) ∧
    (∀ pgs, fb = Except.ok pgs → pdfFallbackText fb = Except.ok pgs.flatten) := by
  refine ⟨?_, ?_, ?_, ?_⟩
  · intro pgs hu hne
    subst hu
    simp [extractPdfText, hne]
  · intro pgs hu hall
    subst hu
    simp [extractPdfText, hall]
  · intro e hu
    subst hu
    rfl
  · intro pgs hfb
    subst hfb
    rfl

/-- Witness for C5: a concrete loader result with one non-empty page among
empties is used directly, and a concrete all-empty result falls back. -/
theorem c5_pdf_structure_first_fallback_witness :
    (Except.ok [['a'], []] : Except (List Char) (List (List Char))) =
        Except.ok [['a'], []] ∧
    ([['a'], []] : List (List Char)).all List.isEmpty = false ∧
    extractPdfText (Except.ok [['a'], []]) (Except.ok [['z']]) =
      Except.ok (([['a'], []] : List (List Char)).flatten) :=
  ⟨rfl, by decide,
    (c5_pdf_structure_first_fallback (Except.ok [['a'], []])
      (Except.ok [['z']])).1 [['a'], []] rfl (by decide)⟩

/-- C6: when both pdf loaders raise, extraction fails with the error of the
fallback strategy as the underlying cause, and no segment list is ever
returned to the caller. -/
theorem c6_both_loaders_fail (e1 e2 : List Char) :
    extractPdfText (Except.error e1) (Except.error e2) = Except.error e2 ∧
    process_pdf (Except.error e1) (Except.error e2) = Except.error e2 ∧
    ∀ segs, process_pdf (Except.error e1) (Except.error e2) ≠ Except.ok segs :=
  ⟨rfl, rfl, fun _ h => Except.noConfusion h⟩

/-- C9: invalid chunk parameters (non-positive chunk_size, or chunk_overlap
at least chunk_size) make segmenter construction fail fast with a
ConfigurationError; no configured segmenter is produced, so no input text
can be processed. -/
theorem c9_configuration_error (cs co : Int) (h : cs ≤ 0 ∨ co ≥ cs) :
    mkSegmenter cs co =
      Except.error (ConfigurationError.invalidChunkParams cs co) := by
  have h' : cs ≤ 0 ∨ cs ≤ co := h.imp (fun a => a) (fun a => a)
  simp only [mkSegmenter]
  rw [if_pos h']

/-- Witness for C9 at the spec's concrete invalid configuration
(chunk_size 100, chunk_overlap 150). -/
theorem c9_configuration_error_witness :
    ((100 : Int) ≤ 0 ∨ (150 : Int) ≥ 100) ∧
    mkSegmenter 100 150 =
      Except.error (ConfigurationError.invalidChunkParams 100 150) :=
  ⟨Or.inr (by decide), c9_configuration_error 100 150 (Or.inr (by decide))⟩

/-- C10: the configured segmenter and the tab normalization act only on the
pdf path — every successful process_pdf output consists of segments of
length at most 1500 containing no tab — while process_docx returns the
loader's output unchanged, so docx segments can exceed 1500 characters and
can contain tabs. -/
theorem c10_docx_passthrough :
    (∀ loaded, process_docx loaded = loaded) ∧
    (∀ u fb segs, process_pdf u fb = Except.ok segs →
      ∀ s ∈ segs, s.length ≤ 1500 ∧ '\t' ∉ s) ∧
    (process_docx [List.replicate 1501 '\t'] = [List.replicate 1501 '\t'] ∧
      1500 < (List.replicate 1501 '\t').length ∧
      '\t' ∈ List.replicate 1501 '\t') := by
  refine ⟨fun _ => rfl, ?_, rfl, by rw [List.length_replicate]; omega,
    by rw [List.mem_replicate]; exact ⟨by omega, rfl⟩⟩
  intro u fb segs h s hs
  rw [process_pdf] at h
  cases hext : extractPdfText u fb with
  | error e => rw [hext] at h; exact Except.noConfusion h
  | ok t =>
    rw [hext] at h
    simp only [Except.ok.injEq] at h
    subst h
    constructor
    · exact segmentText_length_le sourceChunkSize sourceChunkOverlap
        sourceSeparators (normalizeTabs t) (by decide) s hs
    · intro hc
      exact normalizeTabs_no_tab t
        (segmentText_chars sourceChunkSize sourceChunkOverlap sourceSeparators
          (normalizeTabs t) s hs '\t' hc)

end ResumeCompass
